import Mathlib

/-!
Shallow embedding of the Bible-App corpus core (src/src/main.rs): the data
model (`Verse`, `Chapter`, `Book`, `Bible`), the three query operations
(`get_verse`, `get_chapter`, `search`), the line parser (`parse_book_file`),
the directory loader (`from_directories` with `read_testament_books`) and the
canonical 66-book ordering (`get_standard_book_order`).

Modelling conventions:
- Rust `String` / `&str` becomes `Str := List Nat` (Unicode scalar values);
  `str` converts a Lean string literal.
- `str::to_lowercase` is modelled on its ASCII case mapping (`A`..`Z` to
  `a`..`z`); `str::contains` is literal substring containment.
- `u32` / `usize` values are `Nat`; where the Rust code can wrap (the
  `chapter_num as usize - 1` index computation, the `len() as u32 + 1`
  chapter number), the arithmetic is taken modulo `2^64` resp. `2^32`,
  matching release-mode two's-complement semantics that the spec describes.
- `io::Result` becomes `Except Unit`; the filesystem is a `Dir` value:
  an optional listing (`none` = `read_dir` fails) of entry results
  (`.err` = the per-entry `Result` fails), each entry carrying a file name,
  an `is_file` flag, and optional content (`none` = `File::open` fails);
  file content is a list of line results (`none` = the line fails to decode
  and is skipped).
- `eprintln!` diagnostics of the malformed-verse branch are modelled as an
  explicit list of warned lines threaded through the parser.
-/

namespace BibleApp

/-- Text modelled as the list of Unicode scalar values of the string. -/
abbrev Str := List Nat

/-- Converts a Lean string literal into the `Str` model. -/
def str (s : String) : Str := s.data.map Char.toNat

/-- ASCII lowercase mapping of one scalar value, the case mapping used by
`to_lowercase` on ASCII text. -/
def lowerChar (c : Nat) : Nat := if 65 ≤ c ∧ c ≤ 90 then c + 32 else c

/-- Models `str::to_lowercase`. -/
def lowerStr (s : Str) : Str := s.map lowerChar

/-- Boolean test that `q` is a prefix of `s` (helper for substring search). -/
def startsWith : Str → Str → Bool
  | _, [] => true
  | [], _ :: _ => false
  | a :: s, b :: q => a == b && startsWith s q

/-- Models `str::contains`: `q` occurs as a contiguous substring of `s`. -/
def containsStr : Str → Str → Bool
  | [], q => q.isEmpty
  | a :: rest, q => startsWith (a :: rest) q || containsStr rest q

/-- Rust struct `Testament`. -/
inductive Testament where
  | old
  | new
deriving DecidableEq, Repr

/-- Rust struct `Verse`. -/
structure Verse where
  book : Str
  chapter : Nat
  verse_number : Nat
  text : Str
deriving DecidableEq, Repr

/-- Rust struct `Chapter`. -/
structure Chapter where
  number : Nat
  verses : List Verse
deriving DecidableEq, Repr

/-- Rust struct `Book`. -/
structure Book where
  name : Str
  testament : Testament
  chapters : List Chapter
deriving DecidableEq, Repr

/-- Rust struct `Bible`. -/
structure Bible where
  books : List Book
deriving DecidableEq, Repr

/-- Models `Bible::get_verse`: scan the books in order; on a name match,
look the chapter up by number — if found, return the result of the verse
lookup (possibly `none`) immediately; if the chapter is absent, keep
scanning later books. -/
def getVerseGo (bookName : Str) (chapter verse : Nat) : List Book → Option Verse
  | [] => none
  | b :: bs =>
    if b.name = bookName then
      match b.chapters.find? (fun c => c.number == chapter) with
      | some c => c.verses.find? (fun v => v.verse_number == verse)
      | none => getVerseGo bookName chapter verse bs
    else getVerseGo bookName chapter verse bs

/-- Entry point of `Bible::get_verse`. -/
def getVerse (bible : Bible) (bookName : Str) (chapter verse : Nat) : Option Verse :=
  getVerseGo bookName chapter verse bible.books

/-- Models `Bible::get_chapter`: return on the first book whose name
matches, with the result of the chapter lookup (possibly `none`). -/
def getChapterGo (bookName : Str) (chapter : Nat) : List Book → Option Chapter
  | [] => none
  | b :: bs =>
    if b.name = bookName then b.chapters.find? (fun c => c.number == chapter)
    else getChapterGo bookName chapter bs

/-- Entry point of `Bible::get_chapter`. -/
def getChapter (bible : Bible) (bookName : Str) (chapter : Nat) : Option Chapter :=
  getChapterGo bookName chapter bible.books

/-- Models `Bible::search`: lowercase the query once, then walk every book,
chapter and verse in stored order, keeping the verses whose lowercased text
contains the lowered query. -/
def search (bible : Bible) (query : Str) : List Verse :=
  let q := lowerStr query
  bible.books.flatMap fun b =>
    b.chapters.flatMap fun c =>
      c.verses.filter fun v => containsStr (lowerStr v.text) q

/-- All verses of the corpus in traversal order (books in stored order, then
chapters in stored order, then verses in stored order). -/
def allVerses (bible : Bible) : List Verse :=
  bible.books.flatMap fun b => b.chapters.flatMap fun c => c.verses

/-! ### The line parser (`Bible::parse_book_file`) -/

/-- Two to the 32nd, the modulus of `u32` arithmetic. -/
def U32 : Nat := 4294967296

/-- Two to the 64th, the modulus of `usize` arithmetic. -/
def USIZE : Nat := 18446744073709551616

/-- Models Rust `str::split_once(sep)`: split at the first occurrence of the
separator, dropping it; `none` when the separator does not occur. -/
def splitOnce (sep : Nat) : Str → Option (Str × Str)
  | [] => none
  | c :: cs =>
    if c = sep then some ([], cs)
    else
      match splitOnce sep cs with
      | some (l, r) => some (c :: l, r)
      | none => none

/-- Decides whether a scalar value is an ASCII digit. -/
def isDigitChar (c : Nat) : Bool := 48 ≤ c && c ≤ 57

/-- Numeric value of a list of ASCII digits, most significant first. -/
def digitsToNat (s : Str) : Nat := s.foldl (fun acc c => acc * 10 + (c - 48)) 0

/-- Models `str::parse::<u32>`: an optional leading plus sign, then one or
more ASCII digits, whose value must fit in `u32`; anything else is `none`. -/
def parseU32 (s : Str) : Option Nat :=
  let t := match s with
    | 43 :: rest => rest
    | _ => s
  if t = [] then none
  else if t.all isDigitChar then
    let v := digitsToNat t
    if v < U32 then some v else none
  else none

/-- Outcome of looking at one decoded line in `parse_book_file`. -/
inductive LineOutcome where
  | record (chapterNum verseNum : Nat) (text : Str)
  | noSpace
  | malformed
deriving DecidableEq, Repr

/-- Classifies a decoded line exactly as `parse_book_file` does:
`split_once(' ')` failing means the line is silently ignored (`noSpace`);
a first token without a colon triggers the malformed-verse warning
(`malformed`); otherwise the two locator components are parsed with
`unwrap_or(0)` and a record is produced. -/
def classifyLine (line : Str) : LineOutcome :=
  match splitOnce 32 line with
  | none => .noSpace
  | some (reference, text) =>
    match splitOnce 58 reference with
    | none => .malformed
    | some (chapterStr, verseStr) =>
      .record ((parseU32 chapterStr).getD 0) ((parseU32 verseStr).getD 0) text

/-- One round of the `while book.chapters.len() < chapter_num` loop body,
iterated a given number of times: each round appends an empty chapter
numbered `len as u32 + 1`. -/
def growChaptersAux (chapters : List Chapter) : Nat → List Chapter
  | 0 => chapters
  | n + 1 => growChaptersAux (chapters ++ [⟨(chapters.length % U32 + 1) % U32, []⟩]) n

/-- Models the `while book.chapters.len() < chapter_num` loop: append empty
chapters numbered `len as u32 + 1` until the length reaches the target; the
loop runs while `len < target`, hence exactly `target - len` times. -/
def growChapters (chapters : List Chapter) (target : Nat) : List Chapter :=
  growChaptersAux chapters (target - chapters.length)

/-- Appends a verse to the verse list of the chapter at index `idx`,
leaving every other chapter alone (models `chapters[idx].verses.push(v)`). -/
def addVerseAt : List Chapter → Nat → Verse → List Chapter
  | [], _, _ => []
  | c :: cs, 0, v => ⟨c.number, c.verses ++ [v]⟩ :: cs
  | c :: cs, n + 1, v => c :: addVerseAt cs n v

/-- Models the successful-parse arm of `parse_book_file`'s loop body: grow
the chapter list to `chapterNum` entries, compute the index
`chapter_num as usize - 1` with wrapping subtraction, and push the verse
when the index is in bounds. -/
def insertVerse (book : Book) (chapterNum verseNum : Nat) (text : Str) : Book :=
  let chapters := growChapters book.chapters chapterNum
  let idx := (chapterNum + (USIZE - 1)) % USIZE
  if idx < chapters.length then
    ⟨book.name, book.testament,
      addVerseAt chapters idx ⟨book.name, chapterNum, verseNum, text⟩⟩
  else
    ⟨book.name, book.testament, chapters⟩

/-- Processes one decoded line: a record is inserted, a no-space line is
silently ignored, a malformed line is ignored but emits a warning (modelled
as the warned line itself). -/
def processLine (book : Book) (line : Str) : Book × List Str :=
  match classifyLine line with
  | .record ch vn txt => (insertVerse book ch vn txt, [])
  | .noSpace => (book, [])
  | .malformed => (book, [line])

/-- Processes one line result of the buffered reader: a line that failed to
decode (`none`) is skipped and parsing continues with the next line. -/
def processLineResult (book : Book) (lr : Option Str) : Book × List Str :=
  match lr with
  | none => (book, [])
  | some line => processLine book line

/-- Models the body of `parse_book_file` on already-read content: fold the
line processor over the lines of the file, starting from a book with the
given name and testament and no chapters; also accumulates the
malformed-verse warnings. -/
def parseBookLines (bookName : Str) (testament : Testament)
    (lines : List (Option Str)) : Book × List Str :=
  lines.foldl (fun acc lr =>
    let step := processLineResult acc.1 lr
    (step.1, acc.2 ++ step.2)) (⟨bookName, testament, []⟩, [])

/-! ### The directory loader (`Bible::from_directories`) -/

/-- One entry of a directory listing as the loader sees it. -/
structure FileEntry where
  name : Str
  isFile : Bool
  content : Option (List (Option Str))
deriving DecidableEq, Repr

/-- Result of the per-entry `Result` inside `read_dir`'s iterator. -/
inductive EntryResult where
  | err
  | ok (e : FileEntry)
deriving DecidableEq, Repr

/-- A directory: `none` when `read_dir` itself fails. -/
structure Dir where
  listing : Option (List EntryResult)
deriving DecidableEq, Repr

/-- The file name the loader skips by exact match. -/
def dsStore : Str := str ".DS_Store"

/-- Models `Path::file_stem` on a plain file name: the portion before the
last dot, except that a sole leading dot is part of the stem. -/
def fileStem (name : Str) : Str :=
  match splitOnce 46 name.reverse with
  | some (_, revPre) => if revPre = [] then name else revPre.reverse
  | none => name

/-- Models `Bible::read_testament_books` over a directory listing: skip
`.DS_Store` entries and non-files, abort with an error on an entry failure
or an unopenable file, and append each parsed book to the accumulator. -/
def readEntries (t : Testament) (books : List Book) :
    List EntryResult → Except Unit (List Book)
  | [] => .ok books
  | .err :: _ => .error ()
  | .ok e :: rest =>
    if e.name = dsStore then readEntries t books rest
    else if e.isFile then
      match e.content with
      | none => .error ()
      | some lines =>
        readEntries t (books ++ [(parseBookLines (fileStem e.name) t lines).1]) rest
  else readEntries t books rest

/-- Models `Bible::read_testament_books`: fail when the directory cannot be
enumerated, otherwise process its entries in order. -/
def readTestamentBooks (books : List Book) (dir : Dir) (t : Testament) :
    Except Unit (List Book) :=
  match dir.listing with
  | none => .error ()
  | some es => readEntries t books es

/-- The 66-name canonical book list of `get_standard_book_order`, in rank
order. -/
def standardBookOrder : List Str :=
  [str "Genesis", str "Exodus", str "Leviticus", str "Numbers",
   str "Deuteronomy", str "Joshua", str "Judges", str "Ruth",
   str "1Samuel", str "2Samuel", str "1Kings", str "2Kings",
   str "1Chronicles", str "2Chronicles", str "Ezra", str "Nehemiah",
   str "Esther", str "Job", str "Psalms", str "Proverbs",
   str "Ecclesiastes", str "SongofSolomon", str "Isaiah", str "Jeremiah",
   str "Lamentations", str "Ezekiel", str "Daniel", str "Hosea",
   str "Joel", str "Amos", str "Obadiah", str "Jonah", str "Micah",
   str "Nahum", str "Habakkuk", str "Zephaniah", str "Haggai",
   str "Zechariah", str "Malachi", str "Matthew", str "Mark", str "Luke",
   str "John", str "Acts", str "Romans", str "1Corinthians",
   str "2Corinthians", str "Galatians", str "Ephesians",
   str "Philippians", str "Colossians", str "1Thessalonians",
   str "2Thessalonians", str "1Timothy", str "2Timothy", str "Titus",
   str "Philemon", str "Hebrews", str "James", str "1Peter", str "2Peter",
   str "1John", str "2John", str "3John", str "Jude", str "Revelation"]

/-- Rank of a book name under `get_standard_book_order`, with the
`unwrap_or(&999)` sentinel for names outside the table. -/
def bookRank (name : Str) : Nat :=
  match standardBookOrder.findIdx? (fun b => b == name) with
  | some i => i
  | none => 999

/-- Stable insertion of a book into a rank-sorted list of books that came
later in the original order: the book goes before every book of rank at
least its own, matching the stability guarantee of `sort_by`. -/
def insertByRank (b : Book) : List Book → List Book
  | [] => [b]
  | x :: xs =>
    if bookRank b.name ≤ bookRank x.name then b :: x :: xs
    else x :: insertByRank b xs

/-- Stable sort of the book list by canonical rank, the specified behaviour
of `bible.books.sort_by(...)` with the rank comparator (`sort_by` is a
stable sort). -/
def sortBooks : List Book → List Book
  | [] => []
  | b :: bs => insertByRank b (sortBooks bs)

/-- Models `Bible::from_directories`: read the Old-Testament directory, then
the New-Testament directory (either failure propagates), then stably sort
the accumulated books by canonical rank. -/
def fromDirectories (oldDir newDir : Dir) : Except Unit Bible :=
  match readTestamentBooks [] oldDir .old with
  | .error e => .error e
  | .ok bs1 =>
    match readTestamentBooks bs1 newDir .new with
    | .error e => .error e
    | .ok bs2 => .ok ⟨sortBooks bs2⟩

end BibleApp

/-! ## Basic lemmas about the string model -/

namespace BibleApp

/-- Lowercasing a scalar value twice is the same as lowercasing it once. -/
lemma lowerChar_idem (c : Nat) : lowerChar (lowerChar c) = lowerChar c := by
  unfold lowerChar
  by_cases h : 65 ≤ c ∧ c ≤ 90
  · rw [if_pos h, if_neg (by omega : ¬(65 ≤ c + 32 ∧ c + 32 ≤ 90))]
  · rw [if_neg h, if_neg h]

/-- Lowercasing a string twice is the same as lowercasing it once. -/
lemma lowerStr_idem (s : Str) : lowerStr (lowerStr s) = lowerStr s := by
  simp [lowerStr, List.map_map, Function.comp_def, lowerChar_idem]

/-- The empty string is a substring of every string. -/
lemma containsStr_nil (s : Str) : containsStr s [] = true := by
  cases s <;> simp [containsStr, startsWith, List.isEmpty]

/-- Filtering distributes over the nested flat maps of the search loop. -/
lemma flatMap_filter {α β : Type} (l : List α) (f : α → List β) (p : β → Bool) :
    (l.flatMap f).filter p = l.flatMap fun a => (f a).filter p := by
  induction l with
  | nil => rfl
  | cons x xs ih => simp [List.flatMap_cons, List.filter_append, ih]

end BibleApp

namespace BibleApp

/-- C1: `search(q)` returns exactly the verses of the corpus whose
lowercased text contains the lowercased query as a substring, each
occurrence kept exactly once, in corpus traversal order (books in stored
order, then chapters in stored order, then verses in stored order) — i.e.
it is the filter of the full traversal by the containment predicate — and
`search("")` returns every verse of the corpus in that order. -/
theorem search_is_filter_of_traversal (bible : Bible) (q : Str) :
    search bible q =
      (allVerses bible).filter (fun v => containsStr (lowerStr v.text) (lowerStr q)) ∧
    search bible (str "") = allVerses bible := by
  constructor
  · unfold search allVerses
    rw [flatMap_filter]
    refine List.flatMap_congr ?_
    intro b _
    rw [flatMap_filter]
  · unfold search allVerses
    refine List.flatMap_congr ?_
    intro b _
    refine List.flatMap_congr ?_
    intro c _
    have : ∀ v : Verse, (fun v : Verse => containsStr (lowerStr v.text) (lowerStr (str ""))) v = true := by
      intro v
      exact containsStr_nil _
    simp [List.filter_eq_self.mpr fun v _ => this v]

/-- C10: `search` is invariant under the letter case of the query — any
two queries with the same lowercasing (in particular a query and its
lowercased form) produce identical result sequences, and `search q` always
equals `search (lowercase q)`. -/
theorem search_query_case_insensitive (bible : Bible) (q1 q2 : Str)
    (h : lowerStr q1 = lowerStr q2) :
    search bible q1 = search bible q2 ∧
    search bible q1 = search bible (lowerStr q1) := by
  have key : ∀ p1 p2 : Str, lowerStr p1 = lowerStr p2 →
      search bible p1 = search bible p2 := by
    intro p1 p2 hp
    unfold search
    rw [hp]
  exact ⟨key q1 q2 h, key q1 (lowerStr q1) (lowerStr_idem q1).symm⟩

/-- Witness for the case-insensitivity of search at concrete inputs. -/
theorem search_query_case_insensitive_witness :
    lowerStr (str "GoD") = lowerStr (str "gOd") ∧
    search ⟨[]⟩ (str "GoD") = search ⟨[]⟩ (str "gOd") :=
  ⟨by decide, (search_query_case_insensitive ⟨[]⟩ (str "GoD") (str "gOd") (by decide)).1⟩

end BibleApp

namespace BibleApp

/-- Growing to a target no larger than the current length is a no-op. -/
lemma growChapters_of_le (cs : List Chapter) (target : Nat)
    (h : target ≤ cs.length) : growChapters cs target = cs := by
  unfold growChapters
  rw [Nat.sub_eq_zero_of_le h]
  rfl

/-- C5: a parsed line whose chapter number is 0 makes the index computation
`chapter_num as usize - 1` wrap to `2^64 - 1`; with that (release-mode)
semantics the chapter list is not grown, the verse is stored nowhere, the
book is left exactly as it was, and no fault occurs — shown both for the
insertion step at chapter 0 with arbitrary verse data and for a whole
line `"0:1 Hello"`, after which parsing simply continues. -/
theorem chapter_zero_is_dropped (book : Book) (verseNum : Nat) (text : Str)
    (h : book.chapters.length ≤ USIZE - 1) :
    insertVerse book 0 verseNum text = book ∧
    processLine book (str "0:1 Hello") = (book, []) := by
  have base : insertVerse book 0 verseNum text = book := by
    unfold insertVerse
    rw [growChapters_of_le book.chapters 0 (Nat.zero_le _)]
    rw [if_neg (by simp only [USIZE] at h ⊢; omega)]
  have base1 : insertVerse book 0 1 (str "Hello") = book := by
    unfold insertVerse
    rw [growChapters_of_le book.chapters 0 (Nat.zero_le _)]
    rw [if_neg (by simp only [USIZE] at h ⊢; omega)]
  refine ⟨base, ?_⟩
  have hclass : classifyLine (str "0:1 Hello") = .record 0 1 (str "Hello") := by decide
  unfold processLine
  rw [hclass]
  simp only [base1]

/-- Witness for the chapter-0 drop at a concrete book. -/
theorem chapter_zero_is_dropped_witness :
    insertVerse ⟨str "T", .old, []⟩ 0 5 (str "x") = ⟨str "T", .old, []⟩ ∧
    processLine ⟨str "T", .old, []⟩ (str "0:1 Hello") = (⟨str "T", .old, []⟩, []) :=
  chapter_zero_is_dropped ⟨str "T", .old, []⟩ 5 (str "x") (by decide)

end BibleApp

namespace BibleApp

/-- C6 counterexample: the line `"garbagenospace"` does not match the shape
`<locator><space><content>` (it has no space at all), contributes no data —
the book is returned unchanged — yet the diagnostics list is empty: no
warning is produced, contradicting the claim that every non-matching line
produces a diagnostic warning. -/
theorem malformed_line_counterexample :
    classifyLine (str "garbagenospace") = .noSpace ∧
    processLine ⟨str "T", .old, []⟩ (str "garbagenospace") = (⟨str "T", .old, []⟩, []) := by
  exact ⟨rfl, rfl⟩

/-- C6 amended: a line that contains a space but whose first token does not
split on a colon contributes no data and produces a diagnostic warning; a
line with no space at all contributes no data and is dropped silently with
no warning; in both cases parsing of the remaining lines continues
unaffected — in particular the file `"garbage text no colon"` followed by
`"1:1 In the beginning"` yields a book with exactly one verse (chapter 1,
verse 1, text `"In the beginning"`) and one warning for the first line.
Locator components that are not valid non-negative integers are coerced
to 0 rather than failing the line, as in `"a:b hello"`. -/
theorem malformed_line_tolerance (book : Book) (line : Str) :
    (classifyLine line = .malformed → processLine book line = (book, [line])) ∧
    (classifyLine line = .noSpace → processLine book line = (book, [])) ∧
    parseBookLines (str "T") .old
        [some (str "garbage text no colon"), some (str "1:1 In the beginning")] =
      (⟨str "T", .old, [⟨1, [⟨str "T", 1, 1, str "In the beginning"⟩]⟩]⟩,
       [str "garbage text no colon"]) ∧
    classifyLine (str "a:b hello") = .record 0 0 (str "hello") := by
  refine ⟨?_, ?_, by decide, by decide⟩
  · intro h
    unfold processLine
    rw [h]
  · intro h
    unfold processLine
    rw [h]

/-- Witness for malformed-line tolerance at a concrete book and lines. -/
theorem malformed_line_tolerance_witness :
    classifyLine (str "x y") = .malformed ∧
    processLine ⟨str "T", .old, []⟩ (str "x y") = (⟨str "T", .old, []⟩, [str "x y"]) ∧
    classifyLine (str "xy") = .noSpace ∧
    processLine ⟨str "T", .old, []⟩ (str "xy") = (⟨str "T", .old, []⟩, []) :=
  ⟨by decide,
   (malformed_line_tolerance ⟨str "T", .old, []⟩ (str "x y")).1 (by decide),
   by decide,
   (malformed_line_tolerance ⟨str "T", .old, []⟩ (str "xy")).2.1 (by decide)⟩

end BibleApp

namespace BibleApp

/-- A corpus with two works named `"X"`: the first lacks chapter 2, the
second has chapter 2 containing one verse. -/
def twoWorksX : Bible :=
  ⟨[⟨str "X", .old, [⟨1, []⟩]⟩,
    ⟨str "X", .old, [⟨1, []⟩, ⟨2, [⟨str "X", 2, 1, str "hi"⟩]⟩]⟩]⟩

/-- C4 counterexample: on `twoWorksX`, the first work with name `"X"` has
no chapter 2, so by the claim `get_verse("X", 2, 1)` should return `None`;
the code instead keeps scanning past it and returns the verse found in the
second work of the same name. -/
theorem get_verse_first_work_counterexample :
    twoWorksX.books.find? (fun b => b.name == str "X") = some ⟨str "X", .old, [⟨1, []⟩]⟩ ∧
    (Book.chapters ⟨str "X", .old, [⟨1, []⟩]⟩).find? (fun c => c.number == 2) = none ∧
    getVerse twoWorksX (str "X") 2 1 = some ⟨str "X", 2, 1, str "hi"⟩ := by
  exact ⟨by decide, by decide, by decide⟩

/-- First chapter hit of the book scan: among the books whose name matches,
the first chapter lookup that succeeds. -/
def firstChapterHit (books : List Book) (bookName : Str) (chapter : Nat) : Option Chapter :=
  (books.filterMap fun b =>
    if b.name = bookName then b.chapters.find? (fun c => c.number == chapter)
    else none).head?

/-- C4 amended: `get_verse` scans the works in order and acts on the first
work whose name matches and whose chapter lookup succeeds: it returns the
first verse of that chapter with the requested verse number, or `None` if
that chapter holds none; name-matching works without the chapter are
skipped rather than ending the scan; when no (work, chapter) pair matches
at all — in particular on the empty corpus — it returns `None`, never an
error. -/
theorem get_verse_characterization (bible : Bible) (bookName : Str)
    (chapter verse : Nat) :
    getVerse bible bookName chapter verse =
      (firstChapterHit bible.books bookName chapter).bind
        (fun c => c.verses.find? (fun v => v.verse_number == verse)) ∧
    getVerse ⟨[]⟩ bookName chapter verse = none := by
  refine ⟨?_, rfl⟩
  show getVerseGo bookName chapter verse bible.books = _
  unfold firstChapterHit
  induction bible.books with
  | nil => rfl
  | cons b bs ih =>
    unfold getVerseGo
    by_cases hn : b.name = bookName
    · rw [if_pos hn]
      cases hf : b.chapters.find? (fun c => c.number == chapter) with
      | some c => simp [List.filterMap_cons, if_pos hn, hf]
      | none => simp [List.filterMap_cons, if_pos hn, hf, ih]
    · rw [if_neg hn]
      simp [List.filterMap_cons, if_neg hn, ih]

end BibleApp

namespace BibleApp

/-- A directory entry that does not force the loader to fail: the per-entry
result is ok, and the entry is either the skipped `.DS_Store` artifact, not
a regular file, or a file that can be opened. -/
def entryHealthy : EntryResult → Prop
  | .err => False
  | .ok e => e.name = dsStore ∨ e.isFile = false ∨ e.content ≠ none

/-- A directory the loader can fully enumerate: `read_dir` succeeds and
every entry is healthy. -/
def dirHealthy (d : Dir) : Prop :=
  ∃ es, d.listing = some es ∧ ∀ r ∈ es, entryHealthy r

/-- Processing a listing succeeds exactly when every entry is healthy. -/
lemma readEntries_ok_iff (t : Testament) (books : List Book) (es : List EntryResult) :
    (∃ bs, readEntries t books es = .ok bs) ↔ ∀ r ∈ es, entryHealthy r := by
  induction es generalizing books with
  | nil => simp [readEntries]
  | cons r rest ih =>
    cases r with
    | err =>
      simp only [readEntries, List.mem_cons]
      constructor
      · rintro ⟨bs, h⟩
        cases h
      · intro h
        exact absurd (h .err (Or.inl rfl)) id
    | ok e =>
      simp only [readEntries, List.mem_cons]
      by_cases hds : e.name = dsStore
      · rw [if_pos hds]
        rw [ih books]
        constructor
        · intro h r hr
          rcases hr with rfl | hr
          · exact Or.inl hds
          · exact h r hr
        · intro h r hr
          exact h r (Or.inr hr)
      · rw [if_neg hds]
        by_cases hf : e.isFile
        · rw [if_pos hf]
          cases hc : e.content with
          | none =>
            constructor
            · rintro ⟨bs, h⟩
              cases h
            · intro h
              rcases h (.ok e) (Or.inl rfl) with h1 | h1 | h1
              · exact absurd h1 hds
              · rw [hf] at h1; cases h1
              · exact absurd hc h1
          | some lines =>
            rw [ih _]
            constructor
            · intro h r hr
              rcases hr with rfl | hr
              · exact Or.inr (Or.inr (by rw [hc]; exact fun hx => Option.noConfusion hx))
              · exact h r hr
            · intro h r hr
              exact h r (Or.inr hr)
        · rw [if_neg hf]
          rw [ih books]
          constructor
          · intro h r hr
            rcases hr with rfl | hr
            · exact Or.inr (Or.inl (by simpa using hf))
            · exact h r hr
          · intro h r hr
            exact h r (Or.inr hr)

/-- Reading one testament directory succeeds exactly when it is healthy. -/
lemma readTestamentBooks_ok_iff (books : List Book) (d : Dir) (t : Testament) :
    (∃ bs, readTestamentBooks books d t = .ok bs) ↔ dirHealthy d := by
  unfold readTestamentBooks dirHealthy
  cases hl : d.listing with
  | none =>
    constructor
    · rintro ⟨bs, h⟩
      cases h
    · rintro ⟨es, hes, _⟩
      cases hes
  | some es =>
    rw [readEntries_ok_iff t books es]
    constructor
    · intro h
      exact ⟨es, rfl, h⟩
    · rintro ⟨es', hes', h⟩
      cases hes'
      exact h

/-- C7: loading returns an IO-kind error if and only if a fatal filesystem
failure occurs — one of the two directories cannot be enumerated (including
a failing per-entry result) or a regular non-`.DS_Store` file in one of
them cannot be opened; equivalently, loading succeeds exactly when both
directories are healthy. The healthiness predicate says nothing about file
content, so no content of a readable file — undecodable or malformed lines
included — can make loading fail, and a fatal failure makes the whole load
return the error. -/
theorem from_directories_error_iff_fs_failure (oldDir newDir : Dir) :
    (∃ b, fromDirectories oldDir newDir = .ok b) ↔
      dirHealthy oldDir ∧ dirHealthy newDir := by
  unfold fromDirectories
  constructor
  · rintro ⟨b, h⟩
    cases h1 : readTestamentBooks [] oldDir .old with
    | error e => rw [h1] at h; cases h
    | ok bs1 =>
      rw [h1] at h
      dsimp only at h
      cases h2 : readTestamentBooks bs1 newDir .new with
      | error e => rw [h2] at h; cases h
      | ok bs2 =>
        exact ⟨(readTestamentBooks_ok_iff [] oldDir .old).mp ⟨bs1, h1⟩,
               (readTestamentBooks_ok_iff bs1 newDir .new).mp ⟨bs2, h2⟩⟩
  · rintro ⟨hOld, hNew⟩
    obtain ⟨bs1, h1⟩ := (readTestamentBooks_ok_iff [] oldDir .old).mpr hOld
    obtain ⟨bs2, h2⟩ := (readTestamentBooks_ok_iff bs1 newDir .new).mpr hNew
    rw [h1]
    dsimp only
    rw [h2]
    exact ⟨⟨sortBooks bs2⟩, rfl⟩

end BibleApp

namespace BibleApp

/-- Membership in an insertion is membership in the inserted book or the
original list. -/
lemma mem_insertByRank (y b : Book) (l : List Book) :
    y ∈ insertByRank b l ↔ y = b ∨ y ∈ l := by
  induction l with
  | nil => simp [insertByRank]
  | cons x xs ih =>
    unfold insertByRank
    by_cases h : bookRank b.name ≤ bookRank x.name
    · rw [if_pos h]
      simp [List.mem_cons]
    · rw [if_neg h]
      simp only [List.mem_cons, ih]
      tauto

/-- Inserting into a rank-sorted list keeps it rank-sorted. -/
lemma pairwise_insertByRank (b : Book) (l : List Book)
    (h : l.Pairwise (fun a c => bookRank a.name ≤ bookRank c.name)) :
    (insertByRank b l).Pairwise (fun a c => bookRank a.name ≤ bookRank c.name) := by
  induction l with
  | nil => simp [insertByRank]
  | cons x xs ih =>
    rcases List.pairwise_cons.mp h with ⟨hx, hxs⟩
    unfold insertByRank
    by_cases hc : bookRank b.name ≤ bookRank x.name
    · rw [if_pos hc]
      refine List.pairwise_cons.mpr ⟨?_, h⟩
      intro y hy
      rcases List.mem_cons.mp hy with rfl | hy
      · exact hc
      · exact le_trans hc (hx y hy)
    · rw [if_neg hc]
      refine List.pairwise_cons.mpr ⟨?_, ih hxs⟩
      intro y hy
      rcases (mem_insertByRank y b xs).mp hy with rfl | hy
      · omega
      · exact hx y hy

/-- The sorted book list is rank-sorted. -/
lemma pairwise_sortBooks (l : List Book) :
    (sortBooks l).Pairwise (fun a c => bookRank a.name ≤ bookRank c.name) := by
  induction l with
  | nil => exact List.Pairwise.nil
  | cons b bs ih => exact pairwise_insertByRank b (sortBooks bs) ih

/-- Filtering by a fixed rank commutes with a stable insertion: the inserted
book lands before every already-present book of its own rank. -/
lemma filter_insertByRank (r : Nat) (b : Book) (l : List Book) :
    (insertByRank b l).filter (fun y => bookRank y.name == r) =
      if bookRank b.name = r then b :: l.filter (fun y => bookRank y.name == r)
      else l.filter (fun y => bookRank y.name == r) := by
  induction l with
  | nil =>
    by_cases hb : bookRank b.name = r
    · simp [insertByRank, List.filter_cons, hb]
    · simp [insertByRank, List.filter_cons, hb]
  | cons x xs ih =>
    unfold insertByRank
    by_cases hc : bookRank b.name ≤ bookRank x.name
    · rw [if_pos hc]
      by_cases hb : bookRank b.name = r
      · simp [List.filter_cons, hb]
      · simp [List.filter_cons, hb]
    · rw [if_neg hc]
      by_cases hb : bookRank b.name = r
      · have hx : ¬ bookRank x.name = r := by omega
        rw [if_pos hb]
        simp [List.filter_cons, hx, ih, hb]
      · rw [if_neg hb]
        simp only [List.filter_cons, ih, if_neg hb]

/-- Stability of the sort: for every rank, the subsequence of books holding
that rank is unchanged by sorting. -/
lemma filter_sortBooks (r : Nat) (l : List Book) :
    (sortBooks l).filter (fun y => bookRank y.name == r) =
      l.filter (fun y => bookRank y.name == r) := by
  induction l with
  | nil => rfl
  | cons b bs ih =>
    show (insertByRank b (sortBooks bs)).filter _ = _
    rw [filter_insertByRank r b (sortBooks bs), List.filter_cons, ih]
    by_cases hb : bookRank b.name = r
    · rw [if_pos hb, if_pos (by simp [hb])]
    · rw [if_neg hb, if_neg (by simp [hb])]

/-- Membership is preserved by the sort. -/
lemma mem_sortBooks (y : Book) (l : List Book) : y ∈ sortBooks l ↔ y ∈ l := by
  induction l with
  | nil => exact Iff.rfl
  | cons b bs ih =>
    show y ∈ insertByRank b (sortBooks bs) ↔ _
    rw [mem_insertByRank, ih]
    simp

end BibleApp

namespace BibleApp

/-- Names in the canonical table rank strictly below the sentinel. -/
lemma bookRank_of_mem (nm : Str) (h : nm ∈ standardBookOrder) : bookRank nm < 999 := by
  unfold bookRank
  cases hf : standardBookOrder.findIdx? (fun b => b == nm) with
  | some i =>
    obtain ⟨hlt, -⟩ := List.findIdx?_eq_some_iff_getElem.mp hf
    have hlen : standardBookOrder.length = 66 := by decide
    dsimp only
    omega
  | none =>
    have := List.findIdx?_eq_none_iff.mp hf nm h
    simp at this

/-- Names outside the canonical table get the sentinel rank 999. -/
lemma bookRank_of_not_mem (nm : Str) (h : nm ∉ standardBookOrder) : bookRank nm = 999 := by
  unfold bookRank
  have hn : standardBookOrder.findIdx? (fun b => b == nm) = none := by
    rw [List.findIdx?_eq_none_iff]
    intro x hx
    simp only [beq_eq_false_iff_ne, ne_eq]
    exact fun hxe => h (hxe ▸ hx)
  rw [hn]

/-- An empty work file named `Exodus.txt` as a directory entry. -/
def exodusEntry : EntryResult := .ok ⟨str "Exodus.txt", true, some []⟩

/-- An empty work file named `Genesis.txt` as a directory entry. -/
def genesisEntry : EntryResult := .ok ⟨str "Genesis.txt", true, some []⟩

/-- C2: after a successful load the corpus is the stable canonical-rank sort
of the books in filesystem-accumulation order: the result is exactly
`sortBooks` of the accumulated books, it is rank-sorted (any earlier work
has rank at most any later work's), for every rank the subsequence of books
of that rank keeps its original filesystem-enumeration order (stability),
canonical names rank strictly below the sentinel 999 while unknown names
get exactly 999 (so unknown works sort after all known ones), and works
named Exodus and Genesis loaded in either enumeration order end with
Genesis before Exodus. -/
theorem canonical_order_after_load (dOld dNew : Dir) (bs1 bs2 : List Book)
    (h1 : readTestamentBooks [] dOld .old = .ok bs1)
    (h2 : readTestamentBooks bs1 dNew .new = .ok bs2) :
    fromDirectories dOld dNew = .ok ⟨sortBooks bs2⟩ ∧
    (sortBooks bs2).Pairwise (fun a c => bookRank a.name ≤ bookRank c.name) ∧
    (∀ r, (sortBooks bs2).filter (fun y => bookRank y.name == r) =
          bs2.filter (fun y => bookRank y.name == r)) ∧
    (∀ nm, nm ∈ standardBookOrder → bookRank nm < 999) ∧
    (∀ nm, nm ∉ standardBookOrder → bookRank nm = 999) ∧
    (fromDirectories ⟨some [exodusEntry, genesisEntry]⟩ ⟨some []⟩).map
        (fun b => b.books.map Book.name) = .ok [str "Genesis", str "Exodus"] ∧
    (fromDirectories ⟨some [genesisEntry, exodusEntry]⟩ ⟨some []⟩).map
        (fun b => b.books.map Book.name) = .ok [str "Genesis", str "Exodus"] := by
  refine ⟨?_, pairwise_sortBooks bs2, fun r => filter_sortBooks r bs2,
          bookRank_of_mem, bookRank_of_not_mem, by rfl, by rfl⟩
  unfold fromDirectories
  rw [h1]
  dsimp only
  rw [h2]

/-- Witness for the canonical-order theorem at a concrete pair of loaded
directories. -/
theorem canonical_order_after_load_witness :
    fromDirectories ⟨some [exodusEntry, genesisEntry]⟩ ⟨some []⟩ =
      .ok ⟨sortBooks [⟨str "Exodus", .old, []⟩, ⟨str "Genesis", .old, []⟩]⟩ :=
  (canonical_order_after_load ⟨some [exodusEntry, genesisEntry]⟩ ⟨some []⟩
    [⟨str "Exodus", .old, []⟩, ⟨str "Genesis", .old, []⟩]
    [⟨str "Exodus", .old, []⟩, ⟨str "Genesis", .old, []⟩] (by rfl) (by rfl)).1

end BibleApp

namespace BibleApp

/-- The chapters appended by `n` rounds of the growth loop starting from
length `start`: empty chapters numbered `start+1, start+2, ...` (with the
`u32` wrap of the source made explicit). -/
def mkChapters (start : Nat) : Nat → List Chapter
  | 0 => []
  | n + 1 => ⟨(start % U32 + 1) % U32, []⟩ :: mkChapters (start + 1) n

/-- The growth loop iterations append exactly `mkChapters`. -/
lemma growChaptersAux_eq (cs : List Chapter) (n : Nat) :
    growChaptersAux cs n = cs ++ mkChapters cs.length n := by
  induction n generalizing cs with
  | zero => simp [growChaptersAux, mkChapters]
  | succ n ih =>
    rw [growChaptersAux, ih]
    simp [mkChapters, List.length_append]

/-- The growth loop appends `target - length` fresh chapters. -/
lemma growChapters_eq (cs : List Chapter) (t : Nat) :
    growChapters cs t = cs ++ mkChapters cs.length (t - cs.length) :=
  growChaptersAux_eq cs (t - cs.length)

/-- Length of the freshly appended chapters. -/
lemma mkChapters_length (s n : Nat) : (mkChapters s n).length = n := by
  induction n generalizing s with
  | zero => rfl
  | succ n ih => simp [mkChapters, ih]

/-- Numbers of the freshly appended chapters are consecutive, as long as the
`u32` chapter counter does not wrap. -/
lemma mkChapters_map_number (s n : Nat) (h : s + n < U32) :
    (mkChapters s n).map Chapter.number = List.range' (s + 1) n := by
  induction n generalizing s with
  | zero => rfl
  | succ n ih =>
    have hs : s % U32 = s := Nat.mod_eq_of_lt (by omega)
    have hs1 : (s + 1) % U32 = s + 1 := Nat.mod_eq_of_lt (by omega)
    rw [mkChapters, List.map_cons, ih (s + 1) (by omega), List.range'_succ]
    simp [hs, hs1]

/-- The freshly appended chapters hold no verses. -/
lemma mkChapters_verses (s n : Nat) : ∀ c ∈ mkChapters s n, c.verses = [] := by
  induction n generalizing s with
  | zero => intro c hc; cases hc
  | succ n ih =>
    intro c hc
    rcases List.mem_cons.mp hc with rfl | hc
    · rfl
    · exact ih (s + 1) c hc

/-- Density invariant: the chapter stored at position `i` carries number
`i + 1`, phrased as an equality of the number column with a range. -/
def dense (cs : List Chapter) : Prop :=
  cs.map Chapter.number = List.range' 1 cs.length

/-- The empty chapter list is dense. -/
lemma dense_nil : dense [] := rfl

/-- Length after growth. -/
lemma growChapters_length (cs : List Chapter) (t : Nat) :
    (growChapters cs t).length = max cs.length t := by
  rw [growChapters_eq, List.length_append, mkChapters_length]
  omega

/-- Growth preserves density while the `u32` counter cannot wrap. -/
lemma dense_growChapters (cs : List Chapter) (t : Nat) (hc : dense cs)
    (hlen : cs.length < U32) (ht : t < U32) : dense (growChapters cs t) := by
  unfold dense
  rw [growChapters_eq, List.length_append, List.map_append, hc,
      mkChapters_length, mkChapters_map_number cs.length (t - cs.length) (by omega)]
  have := List.range'_append_1 1 cs.length (t - cs.length)
  rw [Nat.add_comm 1 cs.length] at this
  rw [this]
  ring_nf

/-- Adding a verse changes no chapter number. -/
lemma addVerseAt_map_number (cs : List Chapter) (i : Nat) (v : Verse) :
    (addVerseAt cs i v).map Chapter.number = cs.map Chapter.number := by
  induction cs generalizing i with
  | nil => rfl
  | cons c cs ih =>
    cases i with
    | zero => simp [addVerseAt]
    | succ n => simp [addVerseAt, ih]

/-- Adding a verse preserves the chapter count. -/
lemma addVerseAt_length (cs : List Chapter) (i : Nat) (v : Verse) :
    (addVerseAt cs i v).length = cs.length := by
  induction cs generalizing i with
  | nil => rfl
  | cons c cs ih =>
    cases i with
    | zero => simp [addVerseAt]
    | succ n => simp [addVerseAt, ih]

/-- Adding a verse leaves every other position untouched. -/
lemma addVerseAt_getElem?_ne (cs : List Chapter) (i : Nat) (v : Verse) (j : Nat)
    (h : j ≠ i) : (addVerseAt cs i v)[j]? = cs[j]? := by
  induction cs generalizing i j with
  | nil => rfl
  | cons c cs ih =>
    cases i with
    | zero =>
      cases j with
      | zero => exact absurd rfl h
      | succ m => simp [addVerseAt]
    | succ n =>
      cases j with
      | zero => simp [addVerseAt]
      | succ m => simpa [addVerseAt] using ih n m (by omega)

/-- Adding a verse appends it at the addressed position. -/
lemma addVerseAt_getElem?_eq (cs : List Chapter) (i : Nat) (v : Verse)
    (h : i < cs.length) :
    ∃ c, cs[i]? = some c ∧ (addVerseAt cs i v)[i]? = some ⟨c.number, c.verses ++ [v]⟩ := by
  induction cs generalizing i with
  | nil => cases h
  | cons c cs ih =>
    cases i with
    | zero => exact ⟨c, by simp, by simp [addVerseAt]⟩
    | succ n =>
      obtain ⟨c', h1, h2⟩ := ih n (by simpa using h)
      exact ⟨c', by simpa using h1, by simpa [addVerseAt] using h2⟩

/-- The verse list stored for chapter number `c` (1-based), empty when the
chapter does not exist. -/
def chapterVersesAt (book : Book) (c : Nat) : List Verse :=
  match book.chapters[c - 1]? with
  | some ch => ch.verses
  | none => []

/-- The verses a single line result contributes to chapter `c` of a work
named `nm`, per the parsing rules. -/
def specLine (nm : Str) (c : Nat) : Option Str → List Verse
  | none => []
  | some line =>
    match classifyLine line with
    | .record ch vn txt => if ch = c then [⟨nm, ch, vn, txt⟩] else []
    | _ => []

/-- The verses a file's lines place in chapter `c` of a work named `nm`, in
file order. -/
def specVerses (nm : Str) (lines : List (Option Str)) (c : Nat) : List Verse :=
  lines.flatMap (specLine nm c)

/-- Values accepted by the integer parser fit in `u32`. -/
lemma parseU32_lt (s : Str) (v : Nat) (h : parseU32 s = some v) : v < U32 := by
  unfold parseU32 at h
  revert h
  generalize (match s with | 43 :: rest => rest | _ => s) = t
  intro h
  dsimp only at h
  split at h
  · cases h
  · split at h
    · split at h
      · injection h with h
        omega
      · cases h
    · cases h

/-- The coerced locator components always fit in `u32`. -/
lemma parseU32_getD_lt (s : Str) : (parseU32 s).getD 0 < U32 := by
  cases hp : parseU32 s with
  | none => simp [U32]
  | some v => simpa using parseU32_lt s v hp

/-- A record produced by the line classifier has in-range components. -/
lemma classifyLine_record_lt (line : Str) (ch vn : Nat) (txt : Str)
    (h : classifyLine line = .record ch vn txt) : ch < U32 ∧ vn < U32 := by
  unfold classifyLine at h
  rcases hs : splitOnce 32 line with - | ⟨ref, text⟩
  · simp only [hs] at h
    cases h
  · simp only [hs] at h
    rcases hr : splitOnce 58 ref with - | ⟨chs, vs⟩
    · simp only [hr] at h
      cases h
    · simp only [hr] at h
      injection h with h1 h2 h3
      subst h1; subst h2
      exact ⟨parseU32_getD_lt chs, parseU32_getD_lt vs⟩

end BibleApp

namespace BibleApp

/-- Unfolding of the per-chapter verse view on a literal book. -/
lemma chapterVersesAt_mk (n : Str) (t : Testament) (cs : List Chapter) (c : Nat) :
    chapterVersesAt ⟨n, t, cs⟩ c =
      match cs[c - 1]? with
      | some ch => ch.verses
      | none => [] := rfl

/-- Effect of one successful-parse insertion on the book: names are kept,
density and the `u32` bound are preserved, and the verse lists of all
chapters are unchanged except chapter `ch`, which gets the new verse
appended (chapter number 0 stores nothing). -/
lemma insertVerse_spec (b : Book) (ch vn : Nat) (txt : Str)
    (hd : dense b.chapters) (hlen : b.chapters.length < U32) (hch : ch < U32) :
    (insertVerse b ch vn txt).name = b.name ∧
    (insertVerse b ch vn txt).testament = b.testament ∧
    dense (insertVerse b ch vn txt).chapters ∧
    (insertVerse b ch vn txt).chapters.length < U32 ∧
    ∀ c, 1 ≤ c → chapterVersesAt (insertVerse b ch vn txt) c =
      chapterVersesAt b c ++ (if ch = c then [⟨b.name, ch, vn, txt⟩] else []) := by
  rcases Nat.eq_zero_or_pos ch with hch0 | hchpos
  · subst hch0
    unfold insertVerse
    rw [growChapters_of_le b.chapters 0 (Nat.zero_le _)]
    rw [if_neg (by simp only [USIZE]; simp only [U32] at hlen; omega)]
    refine ⟨rfl, rfl, hd, hlen, ?_⟩
    intro c hc
    rw [if_neg (by omega)]
    rw [List.append_nil]
  · have hidx : (ch + (USIZE - 1)) % USIZE = ch - 1 := by
      simp only [USIZE]
      simp only [U32] at hch
      omega
    have hglen : (growChapters b.chapters ch).length = max b.chapters.length ch :=
      growChapters_length b.chapters ch
    have hinb : ch - 1 < (growChapters b.chapters ch).length := by omega
    unfold insertVerse
    rw [hidx, if_pos hinb]
    have hgd : dense (growChapters b.chapters ch) :=
      dense_growChapters b.chapters ch hd hlen hch
    refine ⟨rfl, rfl, ?_, ?_, ?_⟩
    · unfold dense
      rw [addVerseAt_map_number, addVerseAt_length]
      exact hgd
    · simp only [addVerseAt_length]
      simp only [U32] at hlen hch ⊢
      omega
    · intro c hc
      by_cases hcc : ch = c
      · subst hcc
        rw [if_pos rfl]
        obtain ⟨cc, h1, h2⟩ := addVerseAt_getElem?_eq (growChapters b.chapters ch)
          (ch - 1) ⟨b.name, ch, vn, txt⟩ hinb
        rw [chapterVersesAt_mk, h2]
        have hkey : chapterVersesAt b ch = cc.verses := by
          rw [growChapters_eq] at h1
          by_cases hlt : ch - 1 < b.chapters.length
          · rw [List.getElem?_append_left hlt] at h1
            unfold chapterVersesAt
            rw [h1]
          · rw [List.getElem?_append_right (by omega)] at h1
            have hmem : cc ∈ mkChapters b.chapters.length (ch - b.chapters.length) :=
              List.getElem?_mem h1
            have hnone : b.chapters[ch - 1]? = none :=
              List.getElem?_eq_none_iff.mpr (by omega)
            unfold chapterVersesAt
            rw [hnone, mkChapters_verses _ _ cc hmem]
        rw [hkey]
      · rw [if_neg hcc, List.append_nil]
        have hne : c - 1 ≠ ch - 1 := by omega
        rw [chapterVersesAt_mk, addVerseAt_getElem?_ne _ _ _ _ hne]
        rw [growChapters_eq]
        by_cases hlt : c - 1 < b.chapters.length
        · rw [List.getElem?_append_left hlt]
          rfl
        · rw [List.getElem?_append_right (by omega)]
          have hnone : b.chapters[c - 1]? = none :=
            List.getElem?_eq_none_iff.mpr (by omega)
          unfold chapterVersesAt
          rw [hnone]
          cases hmk : (mkChapters b.chapters.length (ch - b.chapters.length))[c - 1 - b.chapters.length]? with
          | none => rfl
          | some cc =>
            dsimp only
            exact mkChapters_verses _ _ cc (List.getElem?_mem hmk)

end BibleApp

namespace BibleApp

/-- The book component of the line-by-line fold of `parse_book_file`. -/
def foldBook (b : Book) (lines : List (Option Str)) : Book :=
  lines.foldl (fun b lr => (processLineResult b lr).1) b

/-- Effect of one line result on the book under the parse invariant. -/
lemma processLineResult_spec (b : Book) (lr : Option Str)
    (hd : dense b.chapters) (hlen : b.chapters.length < U32) :
    (processLineResult b lr).1.name = b.name ∧
    (processLineResult b lr).1.testament = b.testament ∧
    dense (processLineResult b lr).1.chapters ∧
    (processLineResult b lr).1.chapters.length < U32 ∧
    ∀ c, 1 ≤ c → chapterVersesAt (processLineResult b lr).1 c =
      chapterVersesAt b c ++ specLine b.name c lr := by
  cases lr with
  | none =>
    exact ⟨rfl, rfl, hd, hlen, fun c hc => by simp [processLineResult, specLine]⟩
  | some line =>
    have hpl : processLineResult b (some line) = processLine b line := rfl
    cases hcl : classifyLine line with
    | record ch vn txt =>
      obtain ⟨hch, -⟩ := classifyLine_record_lt line ch vn txt hcl
      have hstep : processLine b line = (insertVerse b ch vn txt, []) := by
        unfold processLine
        rw [hcl]
      have hiv := insertVerse_spec b ch vn txt hd hlen hch
      rw [hpl, hstep]
      refine ⟨hiv.1, hiv.2.1, hiv.2.2.1, hiv.2.2.2.1, ?_⟩
      intro c hc
      rw [hiv.2.2.2.2 c hc]
      congr 1
      simp [specLine, hcl]
    | noSpace =>
      have hstep : processLine b line = (b, []) := by
        unfold processLine
        rw [hcl]
      rw [hpl, hstep]
      exact ⟨rfl, rfl, hd, hlen, fun c hc => by simp [specLine, hcl]⟩
    | malformed =>
      have hstep : processLine b line = (b, [line]) := by
        unfold processLine
        rw [hcl]
      rw [hpl, hstep]
      exact ⟨rfl, rfl, hd, hlen, fun c hc => by simp [specLine, hcl]⟩

/-- Fold invariant for the whole file: names kept, density and the `u32`
bound preserved, and every chapter's verse list extended by exactly the
verses the lines place in it, in file order. -/
lemma foldBook_spec (lines : List (Option Str)) : ∀ b : Book,
    dense b.chapters → b.chapters.length < U32 →
    (foldBook b lines).name = b.name ∧
    (foldBook b lines).testament = b.testament ∧
    dense (foldBook b lines).chapters ∧
    (foldBook b lines).chapters.length < U32 ∧
    ∀ c, 1 ≤ c → chapterVersesAt (foldBook b lines) c =
      chapterVersesAt b c ++ specVerses b.name lines c := by
  induction lines with
  | nil =>
    intro b hd hl
    exact ⟨rfl, rfl, hd, hl, fun c hc => by simp [specVerses, foldBook]⟩
  | cons lr rest ih =>
    intro b hd hl
    have hstep := processLineResult_spec b lr hd hl
    have hfold : foldBook b (lr :: rest) = foldBook (processLineResult b lr).1 rest := rfl
    obtain ⟨ihn, iht, ihd, ihl, ihv⟩ := ih (processLineResult b lr).1 hstep.2.2.1 hstep.2.2.2.1
    rw [hfold]
    refine ⟨ihn.trans hstep.1, iht.trans hstep.2.1, ihd, ihl, ?_⟩
    intro c hc
    rw [ihv c hc, hstep.2.2.2.2 c hc, hstep.1]
    simp [specVerses, List.flatMap_cons, List.append_assoc]

/-- The book produced by `parseBookLines` is the book-only fold. -/
lemma parseBookLines_fst (nm : Str) (t : Testament) (lines : List (Option Str)) :
    (parseBookLines nm t lines).1 = foldBook ⟨nm, t, []⟩ lines := by
  have key : ∀ (ls : List (Option Str)) (b : Book) (ds : List Str),
      (ls.foldl (fun acc lr =>
        let step := processLineResult acc.1 lr
        (step.1, acc.2 ++ step.2)) (b, ds)).1 = foldBook b ls := by
    intro ls
    induction ls with
    | nil => intro b ds; rfl
    | cons lr rest ih => intro b ds; exact ih (processLineResult b lr).1 _
  exact key lines ⟨nm, t, []⟩ []

/-- Master facts about a parsed book: its name and testament are the inputs,
its chapter list is dense and bounded, and chapter `c` holds exactly the
verses the file's lines place in chapter `c`, in file order. -/
lemma parse_book_master (nm : Str) (t : Testament) (lines : List (Option Str)) :
    (parseBookLines nm t lines).1.name = nm ∧
    (parseBookLines nm t lines).1.testament = t ∧
    dense (parseBookLines nm t lines).1.chapters ∧
    (parseBookLines nm t lines).1.chapters.length < U32 ∧
    ∀ c, 1 ≤ c → chapterVersesAt (parseBookLines nm t lines).1 c = specVerses nm lines c := by
  rw [parseBookLines_fst]
  have h := foldBook_spec lines ⟨nm, t, []⟩ dense_nil (by simp [U32])
  refine ⟨h.1, h.2.1, h.2.2.1, h.2.2.2.1, ?_⟩
  intro c hc
  rw [h.2.2.2.2 c hc]
  have hnil : chapterVersesAt ⟨nm, t, []⟩ c = [] := rfl
  rw [hnil, List.nil_append]

/-- In a dense chapter list the chapter stored at position `i` has number
`i + 1`. -/
lemma dense_getElem (cs : List Chapter) (h : dense cs) (i : Nat) (hi : i < cs.length) :
    (cs.get ⟨i, hi⟩).number = i + 1 := by
  have h1 : (cs.map Chapter.number)[i]? = (List.range' 1 cs.length)[i]? := by rw [h]
  rw [List.getElem?_map] at h1
  have h2 : cs[i]? = some (cs.get ⟨i, hi⟩) := by
    rw [List.getElem?_eq_getElem hi]
    simp
  rw [h2] at h1
  have h3 : (List.range' 1 cs.length)[i]? = some (1 + i) := by
    have hb : i < (List.range' 1 cs.length).length := by simpa using hi
    rw [List.getElem?_eq_getElem hb]
    simp [List.getElem_range'_1]
  rw [h3] at h1
  simp at h1
  rw [List.get_eq_getElem]
  simpa [Nat.add_comm] using h1

end BibleApp

namespace BibleApp

/-- In a chapter list whose numbers are consecutive starting at `s + 1`,
looking a chapter up by number `c` finds exactly the chapter stored at
position `c - s - 1`. -/
lemma find_chapter_of_denseFrom :
    ∀ (cs : List Chapter) (s c : Nat),
      cs.map Chapter.number = List.range' (s + 1) cs.length →
      s < c → c ≤ s + cs.length →
      cs.find? (fun x => x.number == c) = cs[c - s - 1]? := by
  intro cs
  induction cs with
  | nil =>
    intro s c h h1 h2
    simp at h2
    omega
  | cons x xs ih =>
    intro s c h h1 h2
    rw [List.length_cons, List.range'_succ, List.map_cons] at h
    injection h with hx hxs
    by_cases hc : c = s + 1
    · subst hc
      have hb : (x.number == s + 1) = true := by simp [hx]
      rw [List.find?_cons, hb]
      have hz : s + 1 - s - 1 = 0 := by omega
      rw [hz]
      simp
    · have hb : (x.number == c) = false := by
        rw [hx]
        simp only [beq_eq_false_iff_ne, ne_eq]
        omega
      rw [List.find?_cons, hb]
      have hrec := ih (s + 1) c (by simpa using hxs) (by omega) (by simp at h2; omega)
      rw [hrec]
      have hs1 : c - s - 1 = (c - (s + 1) - 1) + 1 := by omega
      rw [hs1]
      simp

/-- The book scan of `get_chapter`: stop at the first name match and return
its chapter lookup. -/
lemma getChapterGo_eq (nm : Str) (ch : Nat) : ∀ books : List Book,
    getChapterGo nm ch books =
      (books.find? (fun b => b.name == nm)).bind
        (fun b => b.chapters.find? (fun c => c.number == ch)) := by
  intro books
  induction books with
  | nil => rfl
  | cons b bs ih =>
    unfold getChapterGo
    by_cases hn : b.name = nm
    · have hb : (b.name == nm) = true := by simp [hn]
      rw [if_pos hn, List.find?_cons, hb]
      rfl
    · have hb : (b.name == nm) = false := by simp [hn]
      rw [if_neg hn, List.find?_cons, hb, ih]

/-- C3: the chapter sequence produced by parsing a file is dense — the
chapter stored at position `i` has number `i + 1` — and in particular a
file whose only line is `"3:1 Some text"` yields exactly 3 chapters, the
first two empty and the third holding exactly the one verse. -/
theorem parsed_chapters_dense (nm : Str) (t : Testament) (lines : List (Option Str))
    (i : Nat) (hi : i < (parseBookLines nm t lines).1.chapters.length) :
    ((parseBookLines nm t lines).1.chapters.get ⟨i, hi⟩).number = i + 1 ∧
    (parseBookLines (str "T") .old [some (str "3:1 Some text")]).1.chapters =
      [⟨1, []⟩, ⟨2, []⟩, ⟨3, [⟨str "T", 3, 1, str "Some text"⟩]⟩] :=
  ⟨dense_getElem _ (parse_book_master nm t lines).2.2.1 i hi, by rfl⟩

/-- Witness for chapter density at a concrete parsed file. -/
theorem parsed_chapters_dense_witness :
    ((parseBookLines (str "T") .old [some (str "3:1 Some text")]).1.chapters.get
      ⟨1, by decide⟩).number = 1 + 1 :=
  (parsed_chapters_dense (str "T") .old [some (str "3:1 Some text")] 1 (by decide)).1

end BibleApp

namespace BibleApp

/-- Every book accumulated by the entry loop is either an input book or a
parse result for the testament being read. -/
lemma readEntries_books (t : Testament) :
    ∀ (es : List EntryResult) (books bs : List Book),
      readEntries t books es = .ok bs →
      ∀ b ∈ bs, b ∈ books ∨ ∃ nm lines, b = (parseBookLines nm t lines).1 := by
  intro es
  induction es with
  | nil =>
    intro books bs h b hb
    injection h with h
    subst h
    exact Or.inl hb
  | cons r rest ih =>
    intro books bs h b hb
    cases r with
    | err => cases h
    | ok e =>
      unfold readEntries at h
      by_cases hds : e.name = dsStore
      · rw [if_pos hds] at h
        exact ih books bs h b hb
      · rw [if_neg hds] at h
        by_cases hf : e.isFile
        · rw [if_pos hf] at h
          cases hc : e.content with
          | none => rw [hc] at h; cases h
          | some lines =>
            rw [hc] at h
            rcases ih _ bs h b hb with hmem | hp
            · rcases List.mem_append.mp hmem with hmem | hmem
              · exact Or.inl hmem
              · rcases List.mem_singleton.mp hmem with rfl
                exact Or.inr ⟨fileStem e.name, lines, rfl⟩
            · exact Or.inr hp
        · rw [if_neg hf] at h
          exact ih books bs h b hb

/-- Every book of a successfully loaded corpus is the parse of some file's
lines under some name and testament. -/
lemma fromDirectories_books (dOld dNew : Dir) (bible : Bible)
    (h : fromDirectories dOld dNew = .ok bible) :
    ∀ b ∈ bible.books, ∃ nm t lines, b = (parseBookLines nm t lines).1 := by
  intro b hb
  unfold fromDirectories at h
  cases h1 : readTestamentBooks [] dOld .old with
  | error e => rw [h1] at h; cases h
  | ok bs1 =>
    rw [h1] at h
    dsimp only at h
    cases h2 : readTestamentBooks bs1 dNew .new with
    | error e => rw [h2] at h; cases h
    | ok bs2 =>
      rw [h2] at h
      injection h with h
      subst h
      have hb2 : b ∈ bs2 := (mem_sortBooks b bs2).mp hb
      unfold readTestamentBooks at h1 h2
      cases hl1 : dOld.listing with
      | none => rw [hl1] at h1; cases h1
      | some es1 =>
        rw [hl1] at h1
        cases hl2 : dNew.listing with
        | none => rw [hl2] at h2; cases h2
        | some es2 =>
          rw [hl2] at h2
          rcases readEntries_books .new es2 bs1 bs2 h2 b hb2 with hmem | hp
          · rcases readEntries_books .old es1 [] bs1 h1 b hmem with hmem1 | hp
            · cases hmem1
            · obtain ⟨nm, lines, hpe⟩ := hp
              exact ⟨nm, .old, lines, hpe⟩
          · obtain ⟨nm, lines, hpe⟩ := hp
            exact ⟨nm, .new, lines, hpe⟩

/-- Verses contributed to chapter `c` carry the work name and chapter `c`. -/
lemma specVerses_fields (nm : Str) (lines : List (Option Str)) (c : Nat) :
    ∀ v ∈ specVerses nm lines c, v.book = nm ∧ v.chapter = c := by
  intro v hv
  rcases List.mem_flatMap.mp hv with ⟨lr, -, hv⟩
  cases lr with
  | none => cases hv
  | some line =>
    unfold specLine at hv
    dsimp only at hv
    rcases hcl : classifyLine line with ⟨ch, vn, txt⟩ | - | -
    · rw [hcl] at hv
      dsimp only at hv
      by_cases hc : ch = c
      · rw [if_pos hc] at hv
        rcases List.mem_singleton.mp hv with rfl
        exact ⟨rfl, hc⟩
      · rw [if_neg hc] at hv
        cases hv
    · rw [hcl] at hv
      cases hv
    · rw [hcl] at hv
      cases hv

/-- C9: in every successfully loaded corpus each stored verse is consistent
with its containers: its `chapter` field equals the number of the chapter
holding it and its `book` field equals the name of the work owning that
chapter. -/
theorem loaded_verses_selfconsistent (dOld dNew : Dir) (bible : Bible)
    (h : fromDirectories dOld dNew = .ok bible) :
    ∀ b ∈ bible.books, ∀ cp ∈ b.chapters, ∀ v ∈ cp.verses,
      v.book = b.name ∧ v.chapter = cp.number := by
  intro b hb cp hcp v hv
  obtain ⟨nm, t, lines, rfl⟩ := fromDirectories_books dOld dNew bible h b hb
  have hm := parse_book_master nm t lines
  obtain ⟨⟨i, hi⟩, rfl⟩ := List.mem_iff_get.mp hcp
  set bk := (parseBookLines nm t lines).1 with hbk
  have hnum : (bk.chapters.get ⟨i, hi⟩).number = i + 1 :=
    dense_getElem bk.chapters hm.2.2.1 i hi
  have hverses : (bk.chapters.get ⟨i, hi⟩).verses = specVerses nm lines (i + 1) := by
    have hv1 := hm.2.2.2.2 (i + 1) (by omega)
    rw [chapterVersesAt] at hv1
    rw [Nat.add_sub_cancel] at hv1
    rw [List.getElem?_eq_getElem hi] at hv1
    simpa [List.get_eq_getElem] using hv1
  rw [hverses] at hv
  obtain ⟨hvb, hvc⟩ := specVerses_fields nm lines (i + 1) v hv
  exact ⟨hvb.trans hm.1.symm, by rw [hvc, hnum]⟩

/-- Witness for verse self-consistency on a concretely loaded corpus. -/
theorem loaded_verses_selfconsistent_witness :
    (⟨str "Gen", 1, 1, str "Hi"⟩ : Verse).book =
      (⟨str "Gen", .old, [⟨1, [⟨str "Gen", 1, 1, str "Hi"⟩]⟩]⟩ : Book).name ∧
    (⟨str "Gen", 1, 1, str "Hi"⟩ : Verse).chapter =
      (⟨1, [⟨str "Gen", 1, 1, str "Hi"⟩]⟩ : Chapter).number :=
  loaded_verses_selfconsistent
    ⟨some [.ok ⟨str "Gen.txt", true, some [some (str "1:1 Hi")]⟩]⟩ ⟨some []⟩
    ⟨[⟨str "Gen", .old, [⟨1, [⟨str "Gen", 1, 1, str "Hi"⟩]⟩]⟩]⟩ (by rfl)
    ⟨str "Gen", .old, [⟨1, [⟨str "Gen", 1, 1, str "Hi"⟩]⟩]⟩ (by simp)
    ⟨1, [⟨str "Gen", 1, 1, str "Hi"⟩]⟩ (by simp)
    ⟨str "Gen", 1, 1, str "Hi"⟩ (by simp)

end BibleApp

namespace BibleApp

/-- Old-Testament directory holding a file `Genesis.txt` with verse text `A`. -/
def dupOldDir : Dir := ⟨some [.ok ⟨str "Genesis.txt", true, some [some (str "1:1 A")]⟩]⟩

/-- New-Testament directory holding a file `Genesis.txt` with verse text `B`. -/
def dupNewDir : Dir := ⟨some [.ok ⟨str "Genesis.txt", true, some [some (str "1:1 B")]⟩]⟩

/-- The corpus loaded from the two duplicate-named `Genesis` files. -/
def dupBible : Bible :=
  ⟨[⟨str "Genesis", .old, [⟨1, [⟨str "Genesis", 1, 1, str "A"⟩]⟩]⟩,
    ⟨str "Genesis", .new, [⟨1, [⟨str "Genesis", 1, 1, str "B"⟩]⟩]⟩]⟩

/-- C8 counterexample: loading two files both named `Genesis.txt` produces
two works named `Genesis`; the second work's originating file placed the
verse `B` in its chapter 1 (as its stored chapter shows), yet
`get_chapter("Genesis", 1)` returns the first work's chapter, holding `A` —
so for the second work the claim's conclusion fails. -/
theorem get_chapter_shadowed_counterexample :
    fromDirectories dupOldDir dupNewDir = .ok dupBible ∧
    (dupBible.books.get ⟨1, by decide⟩).name = str "Genesis" ∧
    (dupBible.books.get ⟨1, by decide⟩).chapters =
      [⟨1, [⟨str "Genesis", 1, 1, str "B"⟩]⟩] ∧
    specVerses (str "Genesis") [some (str "1:1 B")] 1 =
      [⟨str "Genesis", 1, 1, str "B"⟩] ∧
    getChapter dupBible (str "Genesis") 1 =
      some ⟨1, [⟨str "Genesis", 1, 1, str "A"⟩]⟩ ∧
    (⟨str "Genesis", 1, 1, str "A"⟩ : Verse) ≠ ⟨str "Genesis", 1, 1, str "B"⟩ := by
  refine ⟨by rfl, by rfl, by rfl, by rfl, by rfl, by decide⟩

/-- C8 amended: in a successfully loaded corpus, for the first work `w`
carrying its name (the one `find?` locates) and any `c` between 1 and its
chapter count, `get_chapter(w.name, c)` returns (not `None`) the chapter
stored at position `c - 1` of `w`, whose number is `c` and whose verse
sequence is exactly the verses `w`'s originating file placed in chapter
`c`, in file order; works shadowed by an earlier work of the same name are
not reachable this way. -/
theorem get_chapter_of_first_work (dOld dNew : Dir) (bible : Bible) (w : Book)
    (h : fromDirectories dOld dNew = .ok bible)
    (hw : bible.books.find? (fun b => b.name == w.name) = some w)
    (c : Nat) (hc1 : 1 ≤ c) (hc2 : c ≤ w.chapters.length) :
    ∃ ch, getChapter bible w.name c = some ch ∧ ch.number = c ∧
      ∃ nm t lines, w = (parseBookLines nm t lines).1 ∧ nm = w.name ∧
        ch.verses = specVerses nm lines c := by
  have hwmem : w ∈ bible.books := List.mem_of_find?_eq_some hw
  obtain ⟨nm, t, lines, hwe⟩ := fromDirectories_books dOld dNew bible h w hwmem
  have hm := parse_book_master nm t lines
  have hdense : dense w.chapters := by rw [hwe]; exact hm.2.2.1
  have hnm : nm = w.name := by rw [hwe]; exact hm.1.symm
  have hlt : c - 1 < w.chapters.length := by omega
  refine ⟨w.chapters.get ⟨c - 1, hlt⟩, ?_, ?_, nm, t, lines, hwe, hnm, ?_⟩
  · show getChapterGo w.name c bible.books = _
    rw [getChapterGo_eq, hw]
    show w.chapters.find? (fun x => x.number == c) = _
    rw [find_chapter_of_denseFrom w.chapters 0 c (by simpa using hdense)
        (by omega) (by omega)]
    have : c - 0 - 1 = c - 1 := by omega
    rw [this, List.getElem?_eq_getElem hlt]
    simp
  · have := dense_getElem w.chapters hdense (c - 1) hlt
    rw [this]
    omega
  · have hv := hm.2.2.2.2 c hc1
    have hcv : chapterVersesAt w c = (w.chapters.get ⟨c - 1, hlt⟩).verses := by
      unfold chapterVersesAt
      rw [List.getElem?_eq_getElem hlt]
      simp
    rw [← hcv]
    rw [hwe]
    exact hv

/-- Witness: the first-work chapter lookup on a concretely loaded corpus. -/
theorem get_chapter_of_first_work_witness :
    ∃ ch, getChapter ⟨[⟨str "Gen", .old, [⟨1, [⟨str "Gen", 1, 1, str "Hi"⟩]⟩]⟩]⟩
        (str "Gen") 1 = some ch ∧ ch.number = 1 ∧
      ∃ nm t lines,
        (⟨str "Gen", .old, [⟨1, [⟨str "Gen", 1, 1, str "Hi"⟩]⟩]⟩ : Book) =
          (parseBookLines nm t lines).1 ∧ nm = str "Gen" ∧
        ch.verses = specVerses nm lines 1 :=
  get_chapter_of_first_work
    ⟨some [.ok ⟨str "Gen.txt", true, some [some (str "1:1 Hi")]⟩]⟩ ⟨some []⟩
    ⟨[⟨str "Gen", .old, [⟨1, [⟨str "Gen", 1, 1, str "Hi"⟩]⟩]⟩]⟩
    ⟨str "Gen", .old, [⟨1, [⟨str "Gen", 1, 1, str "Hi"⟩]⟩]⟩
    (by rfl) (by rfl) 1 (by decide) (by decide)

end BibleApp
